import Mathlib

/-!
Verification of the HORUS-Kemet-AI repository scripts
(`cursor_agents_cli.py`, `cursor_agent_fetcher.py`).

The development shallowly embeds the data model and the pure core of the
scripts: JSON trees, the depth-first node traversal, the `bc-...` identifier
grammar and its leftmost regex search, the URL query-parameter search, the
object finder/filter, the summarizer, the content decoder (UTF-8 / Latin-1 /
base64 chain with optional gzip framing), the `__NEXT_DATA__` extraction, and
the exit-code skeleton of the filter CLI `main`.  External collaborators
(the HTTP client, the gzip codec, the HTML parser producing script tags, the
JSON text parser) are taken as explicit parameters, as the spec treats them.
-/

namespace Horus

/-- JSON values as produced by `json.loads`: objects keep insertion order of
their (string) keys, mirroring Python dicts. -/
inductive Json where
  | null : Json
  | bool (b : Bool) : Json
  | num (n : Int) : Json
  | str (s : String) : Json
  | arr (xs : List Json) : Json
  | obj (fields : List (String × Json)) : Json

/-- One step of the traversal path: a dict key or an array index
(`path + (key,)` / `path + (idx,)` in `iterate_json_nodes`). -/
inductive PathElem where
  | key (k : String) : PathElem
  | idx (i : Nat) : PathElem
deriving Repr, DecidableEq

mutual

/-- `iterate_json_nodes` (cursor_agents_cli.py, lines 83-91): depth-first
pre-order traversal yielding (path, node) pairs; dict children in key
(insertion) order, list children in index order. -/
def iterateJsonNodes (j : Json) (p : List PathElem) : List (List PathElem × Json) :=
  (p, j) :: iterChildren j p

/-- The recursion over a node's children in `iterate_json_nodes`. -/
def iterChildren (j : Json) (p : List PathElem) : List (List PathElem × Json) :=
  match j with
  | .obj fs => iterFields fs p
  | .arr xs => iterElems xs p 0
  | _ => []

/-- Traversal of the fields of a dict node, in insertion order. -/
def iterFields (fs : List (String × Json)) (p : List PathElem) : List (List PathElem × Json) :=
  match fs with
  | [] => []
  | (k, v) :: rest => iterateJsonNodes v (p ++ [PathElem.key k]) ++ iterFields rest p

/-- Traversal of the elements of a list node, with `enumerate` indices. -/
def iterElems (xs : List Json) (p : List PathElem) (i : Nat) : List (List PathElem × Json) :=
  match xs with
  | [] => []
  | v :: rest => iterateJsonNodes v (p ++ [PathElem.idx i]) ++ iterElems rest p (i + 1)

end

mutual

/-- Number of nodes of a JSON tree (every dict, list, and scalar counts). -/
def Json.size : Json → Nat
  | .obj fs => 1 + sizeFields fs
  | .arr xs => 1 + sizeElems xs
  | _ => 1

/-- Total node count of a field list's value subtrees. -/
def sizeFields : List (String × Json) → Nat
  | [] => 0
  | (_, v) :: rest => v.size + sizeFields rest

/-- Total node count of an element list's subtrees. -/
def sizeElems : List Json → Nat
  | [] => 0
  | v :: rest => v.size + sizeElems rest

end

mutual

/-- Number of dictionary nodes of a JSON tree. -/
def Json.dictCount : Json → Nat
  | .obj fs => 1 + dictCountFields fs
  | .arr xs => dictCountElems xs
  | _ => 0

/-- Dictionary-node count of a field list's value subtrees. -/
def dictCountFields : List (String × Json) → Nat
  | [] => 0
  | (_, v) :: rest => v.dictCount + dictCountFields rest

/-- Dictionary-node count of an element list's subtrees. -/
def dictCountElems : List Json → Nat
  | [] => 0
  | v :: rest => v.dictCount + dictCountElems rest

end

/-- Key lists of Python dicts have no duplicates. -/
def keysNodup : List String → Bool
  | [] => true
  | k :: ks => (!ks.contains k) && keysNodup ks

mutual

/-- Well-formedness of a JSON tree as produced by `json.loads`: every object
node has pairwise-distinct keys (Python dicts cannot hold duplicates). -/
def Json.wf : Json → Bool
  | .obj fs => keysNodup (fs.map Prod.fst) && wfFields fs
  | .arr xs => wfElems xs
  | _ => true

/-- Well-formedness of each value subtree of a field list. -/
def wfFields : List (String × Json) → Bool
  | [] => true
  | (_, v) :: rest => v.wf && wfFields rest

/-- Well-formedness of each subtree of an element list. -/
def wfElems : List Json → Bool
  | [] => true
  | v :: rest => v.wf && wfElems rest

end

/-! ### The identifier grammar `BCID_REGEX` and its leftmost search

`BCID_REGEX = bc-[0-9a-f]{8}-[0-9a-f]{4}-[0-9a-f]{4}-[0-9a-f]{4}-[0-9a-f]{12}`
with `re.IGNORECASE`.  The pattern is fixed-shape (no variable-width parts),
so `re.search` is: first position at which the 39-character shape matches,
returning the original-case matched text.  `re.IGNORECASE` is modelled by
ASCII case folding, which is exact for the ASCII letters this pattern uses. -/

/-- ASCII lowercase fold of one character (models `re.IGNORECASE` and
`str.lower` on the ASCII identifiers the scripts compare). -/
def asciiLowerChar (c : Char) : Char :=
  if 65 ≤ c.toNat ∧ c.toNat ≤ 90 then Char.ofNat (c.toNat + 32) else c

/-- ASCII lowercase fold of a string. -/
def asciiLower (s : String) : String :=
  String.mk (s.data.map asciiLowerChar)

/-- Is the character in the `[0-9a-f]` class under `re.IGNORECASE`
(so also `A`-`F`)? -/
def isHexChar (c : Char) : Bool :=
  (48 ≤ c.toNat && c.toNat ≤ 57) || (97 ≤ c.toNat && c.toNat ≤ 102) ||
    (65 ≤ c.toNat && c.toNat ≤ 70)

/-- Consume exactly `n` hex characters, returning them and the rest. -/
def hexGroup : Nat → List Char → Option (List Char × List Char)
  | 0, l => some ([], l)
  | _ + 1, [] => none
  | n + 1, c :: l =>
    if isHexChar c then (hexGroup n l).map (fun g => (c :: g.1, g.2)) else none

/-- Consume a literal dash followed by exactly `n` hex characters. -/
def dashHexGroup (n : Nat) : List Char → Option (List Char × List Char)
  | [] => none
  | c :: l =>
    if c = '-' then (hexGroup n l).map (fun g => ('-' :: g.1, g.2)) else none

/-- Try to match `BCID_REGEX` anchored at the head of the character list,
returning the matched text (in its original case): `bc` case-insensitively,
then dash-separated hex groups of sizes 8, 4, 4, 4 and 12. -/
def matchBcidAt : List Char → Option (List Char)
  | b :: c :: l =>
    if (b = 'b' ∨ b = 'B') ∧ (c = 'c' ∨ c = 'C') then
      (dashHexGroup 8 l).bind fun g1 =>
      (dashHexGroup 4 g1.2).bind fun g2 =>
      (dashHexGroup 4 g2.2).bind fun g3 =>
      (dashHexGroup 4 g3.2).bind fun g4 =>
      (dashHexGroup 12 g4.2).map fun g5 =>
        b :: c :: (g1.1 ++ g2.1 ++ g3.1 ++ g4.1 ++ g5.1)
    else none
  | _ => none

/-- `BCID_REGEX.search`: leftmost match of the identifier grammar. -/
def bcidSearchList : List Char → Option (List Char)
  | [] => none
  | c :: rest =>
    match matchBcidAt (c :: rest) with
    | some m => some m
    | none => bcidSearchList rest

/-- `BCID_REGEX.search` on a string, returning `group(0)`. -/
def bcidSearch (s : String) : Option String :=
  (bcidSearchList s.data).map String.mk

/-! ### The query-parameter pattern of `parse_bcid_from_url`

`re.search(r"[?&](?:selectedBcId|bcId)=([^&#]+)", url, re.IGNORECASE)`:
leftmost position holding `?` or `&` followed (case-insensitively) by one of
the two parameter names, `=`, and a nonempty greedy run of characters other
than `&` and `#`; the captured group is that run.  The two alternatives start
with different letters, so the leftmost-then-alternation regex semantics
reduce to trying each name at each position, `selectedBcId` first. -/

/-- Case-insensitive literal match: strip `pat` (given lowercase) from the
head of `l`, comparing ASCII-case-folded characters. -/
def stripCI : List Char → List Char → Option (List Char)
  | [], l => some l
  | _ :: _, [] => none
  | p :: ps, c :: cs => if asciiLowerChar c = p then stripCI ps cs else none

/-- The capture group `([^&#]+)`: the maximal nonempty run of characters
other than `&` and `#`. -/
def captureValue (l : List Char) : Option (List Char) :=
  if l.takeWhile (fun c => c ≠ '&' ∧ c ≠ '#') = [] then none
  else some (l.takeWhile (fun c => c ≠ '&' ∧ c ≠ '#'))

/-- Try the whole query-parameter pattern anchored at the head of `l`,
returning the captured parameter value. -/
def queryMatchAt : List Char → Option (List Char)
  | [] => none
  | c :: rest =>
    if c = '?' ∨ c = '&' then
      match stripCI "selectedbcid=".data rest with
      | some afterEq => captureValue afterEq
      | none =>
        match stripCI "bcid=".data rest with
        | some afterEq => captureValue afterEq
        | none => none
    else none

/-- Leftmost match of the query-parameter pattern, returning the captured
parameter value. -/
def querySearchList : List Char → Option (List Char)
  | [] => none
  | c :: rest =>
    match queryMatchAt (c :: rest) with
    | some v => some v
    | none => querySearchList rest

/-- `parse_bcid_from_url` (cursor_agents_cli.py, lines 15-33): extract a bcId
from the `selectedBcId`/`bcId` query parameter value, falling back to a
`BCID_REGEX` search anywhere in the URL. -/
def parse_bcid_from_url (url : String) : Option String :=
  match querySearchList url.data with
  | some candidate =>
    match bcidSearchList candidate with
    | some m => some (String.mk m)
    | none => (bcidSearchList url.data).map String.mk
  | none => (bcidSearchList url.data).map String.mk

/-! ### `find_bc_objects` -/

/-- Python dict lookup `node.get(field)` on an insertion-ordered dict
(keys are unique in a real dict, so first-match lookup is exact). -/
def dictGet (fs : List (String × Json)) (k : String) : Option Json :=
  match fs with
  | [] => none
  | (k0, v) :: rest => if k0 = k then some v else dictGet rest k

/-- The candidate strings gathered for one dict node: string values of the
fields `id`, `bcId`, `bc_id`, `bcid`, then every string value of the node in
insertion order. -/
def candidateStrings (fs : List (String × Json)) : List String :=
  (["id", "bcId", "bc_id", "bcid"].filterMap fun k =>
    match dictGet fs k with
    | some (Json.str s) => some s
    | _ => none) ++
  (fs.filterMap fun kv =>
    match kv.2 with
    | Json.str s => some s
    | _ => none)

/-- Does the `bcid_filter` accept a matched identifier?  A missing filter
(`None`) and an empty filter string are both falsy in
`if bcid_filter and bcid.lower() != bcid_filter.lower()`. -/
def filterAccepts (bcidFilter : Option String) (m : String) : Bool :=
  match bcidFilter with
  | none => true
  | some f => if f = "" then true else asciiLower m = asciiLower f

/-- One candidate string passes when `BCID_REGEX.search` finds a match and
the filter accepts it (`bcid.lower() == bcid_filter.lower()`). -/
def candidatePasses (bcidFilter : Option String) (c : String) : Bool :=
  match bcidSearch c with
  | some m => filterAccepts bcidFilter m
  | none => false

/-- Is a dict node appended to the results?  The candidate loop appends the
node and breaks at the first passing candidate, so the node is emitted
exactly when some candidate passes. -/
def nodeMatches (bcidFilter : Option String) (fs : List (String × Json)) : Bool :=
  (candidateStrings fs).any (candidatePasses bcidFilter)

/-- `find_bc_objects` (cursor_agents_cli.py, lines 94-122): walk all nodes,
collect each dict node with a passing candidate string; one entry per
traversal occurrence, no deduplication. -/
def find_bc_objects (data : Json) (bcidFilter : Option String) : List Json :=
  (iterateJsonNodes data []).filterMap fun pn =>
    match pn.2 with
    | Json.obj fs => if nodeMatches bcidFilter fs then some (Json.obj fs) else none
    | _ => none

/-! ### `summarize_object` -/

/-- The fixed ordered allowlist `keys_of_interest`. -/
def keys_of_interest : List String :=
  ["id", "bcId", "name", "title", "displayName", "description",
   "createdAt", "updatedAt", "ownerId", "visibility", "slug", "type"]

/-- Membership test `key in d` on an insertion-ordered dict. -/
def dictHasKey (fs : List (String × Json)) (k : String) : Bool :=
  fs.any (fun kv => kv.1 = k)

/-- Python dict assignment `d[k] = v`: replace in place when the key exists,
append otherwise. -/
def dictSet (fs : List (String × Json)) (k : String) (v : Json) : List (String × Json) :=
  match fs with
  | [] => [(k, v)]
  | (k0, v0) :: rest =>
    if k0 = k then (k0, v) :: rest else (k0, v0) :: dictSet rest k v

/-- `summarize_object` (cursor_agents_cli.py, lines 125-150): copy the
allowlisted fields that are present; if at most 2 were found, additionally
copy the not-yet-copied fields among the first 10 keys. -/
def summarize_object (obj : List (String × Json)) : List (String × Json) :=
  let summary := keys_of_interest.foldl (fun s k =>
    match dictGet obj k with
    | some v => dictSet s k v
    | none => s) []
  if summary.length ≤ 2 then
    ((obj.map Prod.fst).take 10).foldl (fun s k =>
      if dictHasKey s k then s else dictSet s k ((dictGet obj k).getD Json.null)) summary
  else summary

/-! ### The content decoder (`CursorAgentFetcher.decode_content`)

Bytes are modelled as natural numbers (meaningful values are `< 256`).  The
gzip codec is an external collaborator: a `decompress` function returning
`none` where `gzip.decompress` raises.  The UTF-8 codec below is the strict
codec of `bytes.decode("utf-8")` / `str.encode("utf-8")`: it rejects
truncated sequences, stray continuation bytes, overlong forms, surrogates
and values above `0x10FFFF`. -/

/-- UTF-8 encoding of one Unicode scalar value. -/
def encodeChar (c : Nat) : List Nat :=
  if c < 128 then [c]
  else if c < 2048 then [192 + c / 64, 128 + c % 64]
  else if c < 65536 then [224 + c / 4096, 128 + c / 64 % 64, 128 + c % 64]
  else [240 + c / 262144, 128 + c / 4096 % 64, 128 + c / 64 % 64, 128 + c % 64]

/-- UTF-8 encoding of a scalar-value sequence. -/
def utf8EncodeList (cs : List Nat) : List Nat :=
  (cs.map encodeChar).flatten

/-- `str.encode("utf-8")` on a Python string (Lean strings carry exactly the
Unicode scalar values Python can encode). -/
def utf8EncodeString (s : String) : List Nat :=
  utf8EncodeList (s.data.map Char.toNat)

/-- Is the byte a UTF-8 continuation byte `10xxxxxx`? -/
def isCont (b : Nat) : Bool :=
  decide (128 ≤ b ∧ b < 192)

mutual

/-- Strict UTF-8 decoding to scalar values, `none` exactly where Python's
`bytes.decode("utf-8")` raises `UnicodeDecodeError`: truncated sequences,
stray continuation bytes, overlong forms (including lead bytes 0xC0/0xC1),
surrogates and values above 0x10FFFF are all rejected. -/
def utf8DecodeList : List Nat → Option (List Nat)
  | [] => some []
  | b0 :: bs =>
    if b0 < 128 then (utf8DecodeList bs).map (b0 :: ·)
    else if b0 < 194 then none
    else if b0 < 224 then utf8Decode2 b0 bs
    else if b0 < 240 then utf8Decode3 b0 bs
    else if b0 < 245 then utf8Decode4 b0 bs
    else none
termination_by l => l.length

/-- Continuation of a two-byte UTF-8 sequence. -/
def utf8Decode2 (b0 : Nat) : List Nat → Option (List Nat)
  | b1 :: bs1 =>
    if isCont b1 then (utf8DecodeList bs1).map (((b0 - 192) * 64 + (b1 - 128)) :: ·)
    else none
  | [] => none
termination_by l => l.length

/-- Continuation of a three-byte UTF-8 sequence. -/
def utf8Decode3 (b0 : Nat) : List Nat → Option (List Nat)
  | b1 :: b2 :: bs2 =>
    let v := (b0 - 224) * 4096 + (b1 - 128) * 64 + (b2 - 128)
    if isCont b1 && isCont b2 && decide (2048 ≤ v) &&
        decide (¬ (55296 ≤ v ∧ v < 57344)) then
      (utf8DecodeList bs2).map (v :: ·)
    else none
  | _ => none
termination_by l => l.length

/-- Continuation of a four-byte UTF-8 sequence. -/
def utf8Decode4 (b0 : Nat) : List Nat → Option (List Nat)
  | b1 :: b2 :: b3 :: bs3 =>
    let v := (b0 - 240) * 262144 + (b1 - 128) * 4096 + (b2 - 128) * 64 + (b3 - 128)
    if isCont b1 && isCont b2 && isCont b3 && decide (65536 ≤ v) &&
        decide (v < 1114112) then
      (utf8DecodeList bs3).map (v :: ·)
    else none
  | _ => none
termination_by l => l.length

end

/-- `bytes.decode("utf-8")` as a Python string. -/
def utf8DecodeString (bs : List Nat) : Option String :=
  (utf8DecodeList bs).map (fun cs => String.mk (cs.map Char.ofNat))

/-- `bytes.decode("latin-1")`: each byte becomes the code point of the same
value; the only conceivable failure is a non-byte input value. -/
def latin1Decode (bs : List Nat) : Option String :=
  if bs.all (fun b => b < 256) then some (String.mk (bs.map Char.ofNat)) else none

/-- The base64 alphabet character for one 6-bit value. -/
def base64Digit (n : Nat) : Char :=
  if n < 26 then Char.ofNat (65 + n)
  else if n < 52 then Char.ofNat (97 + (n - 26))
  else if n < 62 then Char.ofNat (48 + (n - 52))
  else if n = 62 then '+' else '/'

/-- `base64.b64encode(content).decode("ascii")`: standard base64 with
padding, three bytes per four output characters. -/
def base64Encode : List Nat → List Char
  | [] => []
  | [a] =>
    [base64Digit (a / 4), base64Digit (a % 4 * 16), '=', '=']
  | [a, b] =>
    [base64Digit (a / 4), base64Digit (a % 4 * 16 + b / 16), base64Digit (b % 16 * 4), '=']
  | a :: b :: c :: rest =>
    base64Digit (a / 4) :: base64Digit (a % 4 * 16 + b / 16) ::
      base64Digit (b % 16 * 4 + c / 64) :: base64Digit (c % 64) :: base64Encode rest

/-- `content.startswith(b"\x1f\x8b")`. -/
def hasGzipMagic : List Nat → Bool
  | 31 :: 139 :: _ => true
  | _ => false

/-- The bytes `decode_content` goes on to decode: the gzip-decompressed
content when the magic bytes are present and decompression succeeds, the
original bytes otherwise (decompression failure is non-fatal). -/
def effectiveContent (decompress : List Nat → Option (List Nat)) (content : List Nat) : List Nat :=
  if hasGzipMagic content then
    match decompress content with
    | some d => d
    | none => content
  else content

/-- `CursorAgentFetcher.decode_content` (cursor_agent_fetcher.py, lines
61-84): optional gzip decompression, then UTF-8, then Latin-1, then tagged
base64. -/
def decode_content (decompress : List Nat → Option (List Nat)) (content : List Nat) : String :=
  let c := effectiveContent decompress content
  match utf8DecodeString c with
  | some s => s
  | none =>
    match latin1Decode c with
    | some s => s
    | none => String.mk (base64Encode c)

/-! ### `CursorAgentFetcher.extract_agent_id`

`urlparse(url)` then `parse_qs(parsed.query)` then
`params.get("selectedBcId", [None])[0]`.  The query component is the text
after the first `?` once the fragment (text from the first `#`) is removed;
`parse_qs` splits on `&`, drops pieces without `=` and pieces with an empty
raw value, maps `+` to space and percent-decodes names and values
(UTF-8 with replacement characters), and groups values by name in
first-occurrence order — so `[0]` is the value of the first matching pair. -/

/-- Numeric value of a hex digit character. -/
def hexVal (c : Char) : Nat :=
  if c.toNat ≤ 57 then c.toNat - 48
  else if c.toNat ≤ 70 then c.toNat - 55
  else c.toNat - 87

/-- One step tower for UTF-8 decoding with `errors="replace"`: the fuel
argument (instantiated with the list length, which bounds the recursion
depth) makes the recursion structural. -/
def decodeReplaceGo : Nat → List Nat → List Char
  | _, [] => []
  | 0, _ :: _ => []
  | fuel + 1, b0 :: bs =>
    if b0 < 128 then Char.ofNat b0 :: decodeReplaceGo fuel bs
    else if b0 < 194 then Char.ofNat 65533 :: decodeReplaceGo fuel bs
    else if b0 < 224 then
      match bs with
      | b1 :: bs1 =>
        if isCont b1 then Char.ofNat ((b0 - 192) * 64 + (b1 - 128)) :: decodeReplaceGo fuel bs1
        else Char.ofNat 65533 :: decodeReplaceGo fuel bs
      | [] => [Char.ofNat 65533]
    else if b0 < 240 then
      match bs with
      | b1 :: bs1 =>
        if (b0 = 224 && decide (160 ≤ b1 ∧ b1 < 192)) ||
            (b0 = 237 && decide (128 ≤ b1 ∧ b1 < 160)) ||
            (b0 ≠ 224 && b0 ≠ 237 && isCont b1) then
          match bs1 with
          | b2 :: bs2 =>
            if isCont b2 then
              Char.ofNat ((b0 - 224) * 4096 + (b1 - 128) * 64 + (b2 - 128)) ::
                decodeReplaceGo fuel bs2
            else Char.ofNat 65533 :: decodeReplaceGo fuel bs1
          | [] => [Char.ofNat 65533]
        else Char.ofNat 65533 :: decodeReplaceGo fuel bs
      | [] => [Char.ofNat 65533]
    else if b0 < 245 then
      match bs with
      | b1 :: bs1 =>
        if (b0 = 240 && decide (144 ≤ b1 ∧ b1 < 192)) ||
            (b0 = 244 && decide (128 ≤ b1 ∧ b1 < 144)) ||
            (b0 ≠ 240 && b0 ≠ 244 && isCont b1) then
          match bs1 with
          | b2 :: bs2 =>
            if isCont b2 then
              match bs2 with
              | b3 :: bs3 =>
                if isCont b3 then
                  Char.ofNat ((b0 - 240) * 262144 + (b1 - 128) * 4096 +
                    (b2 - 128) * 64 + (b3 - 128)) :: decodeReplaceGo fuel bs3
                else Char.ofNat 65533 :: decodeReplaceGo fuel bs2
              | [] => [Char.ofNat 65533]
            else Char.ofNat 65533 :: decodeReplaceGo fuel bs1
          | [] => [Char.ofNat 65533]
        else Char.ofNat 65533 :: decodeReplaceGo fuel bs
      | [] => [Char.ofNat 65533]
    else Char.ofNat 65533 :: decodeReplaceGo fuel bs

/-- UTF-8 decoding with `errors="replace"`: malformed input produces one
U+FFFD per maximal subpart, as CPython does. -/
def decodeReplace (l : List Nat) : List Char :=
  decodeReplaceGo l.length l

/-- `urllib.parse.unquote`: scan for `%XX` runs, accumulate their bytes and
decode each maximal run as UTF-8 with replacement; a `%` not followed by two
hex digits stays literal.  The fuel argument (instantiated with the input
length, a bound on the recursion depth) makes the recursion structural. -/
def pctDecodeGo : Nat → List Char → List Nat → List Char
  | _, [], acc => decodeReplace acc
  | 0, _ :: _, acc => decodeReplace acc
  | fuel + 1, '%' :: c1 :: c2 :: rest, acc =>
    if isHexChar c1 && isHexChar c2 then
      pctDecodeGo fuel rest (acc ++ [hexVal c1 * 16 + hexVal c2])
    else decodeReplace acc ++ '%' :: pctDecodeGo fuel (c1 :: c2 :: rest) []
  | fuel + 1, '%' :: rest, acc => decodeReplace acc ++ '%' :: pctDecodeGo fuel rest []
  | fuel + 1, c :: rest, acc => decodeReplace acc ++ c :: pctDecodeGo fuel rest []

/-- `unquote` on a whole string. -/
def unquote (s : List Char) : String :=
  String.mk (pctDecodeGo s.length s [])

/-- `str.split(sep)` on one character: note `"".split(sep)` is `[""]`. -/
def splitOnChar (sep : Char) : List Char → List (List Char)
  | [] => [[]]
  | c :: rest =>
    if c = sep then [] :: splitOnChar sep rest
    else
      match splitOnChar sep rest with
      | [] => [[c]]
      | piece :: more => (c :: piece) :: more

/-- `s.split("=", 1)`: `none` when there is no `=`, otherwise the parts
before and after the first `=`. -/
def splitFirstEq : List Char → Option (List Char × List Char)
  | [] => none
  | c :: rest =>
    if c = '=' then some ([], rest)
    else (splitFirstEq rest).map (fun p => (c :: p.1, p.2))

/-- `+` becomes a space before percent-decoding. -/
def plusToSpace (l : List Char) : List Char :=
  l.map (fun c => if c = '+' then ' ' else c)

/-- `urllib.parse.parse_qsl(qs)` with default arguments: split on `&`, skip
empty pieces, pieces without `=` and pieces with an empty raw value; decode
names and values. -/
def parseQsl (qs : List Char) : List (String × String) :=
  (splitOnChar '&' qs).filterMap fun piece =>
    if piece = [] then none
    else
      match splitFirstEq piece with
      | none => none
      | some (n, v) =>
        if v = [] then none
        else some (unquote (plusToSpace n), unquote (plusToSpace v))

/-- The query component of `urlparse(url)`: the text after the first `?`
of the URL with its fragment (from the first `#`) removed. -/
def urlQuery (url : String) : List Char :=
  let noFrag := url.data.takeWhile (fun c => c ≠ '#')
  match noFrag.dropWhile (fun c => c ≠ '?') with
  | [] => []
  | _ :: rest => rest

/-- First value recorded for a name by `parse_qs`
(`params.get(name, [None])[0]`). -/
def firstParamValue (ps : List (String × String)) (k : String) : Option String :=
  match ps with
  | [] => none
  | (k0, v) :: rest => if k0 = k then some v else firstParamValue rest k

/-- `CursorAgentFetcher.extract_agent_id` (cursor_agent_fetcher.py, lines
51-59): the raw first `selectedBcId` query-parameter value, with no
identifier-grammar processing; `none` when the parameter is absent. -/
def extract_agent_id (url : String) : Option String :=
  firstParamValue (parseQsl (urlQuery url)) "selectedBcId"

/-! ### `extract_next_data` and the exit codes of the filter CLI `main`

The HTML parser is an external collaborator: it turns the fetched page into
the document-ordered list of its script tags (attributes and text body), and
`json.loads` is a collaborator `parseJson` returning `none` where it raises
`JSONDecodeError`. -/

/-- A `<script>` tag as seen through BeautifulSoup: its `id` and `type`
attributes and its text body. -/
structure ScriptTag where
  idAttr : Option String
  typeAttr : Option String
  body : String

/-- Does `soup.find("script", {"id": "__NEXT_DATA__", "type":
"application/json"})` select this tag? -/
def isNextDataTag (t : ScriptTag) : Bool :=
  t.idAttr == some "__NEXT_DATA__" && t.typeAttr == some "application/json"

/-- `extract_next_data` (cursor_agents_cli.py, lines 69-80): first matching
script tag; `none` when there is no such tag, its body is empty
(`not tag.text`), or the body fails to parse as JSON. -/
def extract_next_data (parseJson : String → Option Json) (scripts : List ScriptTag) : Option Json :=
  match scripts.find? isNextDataTag with
  | none => none
  | some tag =>
    if tag.body = "" then none
    else
      match parseJson tag.body with
      | some d => some d
      | none => none

/-- Outcome of `fetch_html`: `requests.HTTPError` (non-2xx status via
`raise_for_status`), any other `requests.RequestException` (transport
failure), or the page text. -/
inductive FetchError where
  | http : FetchError
  | transport : FetchError

/-- `args.bcid or parse_bcid_from_url(args.url)`: the explicit argument when
truthy, else the URL-derived identifier. -/
def deriveBcid (bcidArg : Option String) (url : String) : Option String :=
  match bcidArg with
  | some b => if b = "" then parse_bcid_from_url url else some b
  | none => parse_bcid_from_url url

/-- The exit-code skeleton of `main` (cursor_agents_cli.py, lines 183-225):
2 on `HTTPError` or `RequestException`, 3 when `extract_next_data` yields
nothing, and 0 otherwise — both when the match list is empty (the early
`return 0`) and when matches are printed (the final `return 0`).  Output
printing and the optional output file (whose write failure is only a
warning) do not influence the exit code. -/
def mainExit (bcidArg : Option String) (url : String)
    (fetchResult : Except FetchError String)
    (parseJson : String → Option Json) (scriptsOf : String → List ScriptTag) : Nat :=
  let bcid := deriveBcid bcidArg url
  match fetchResult with
  | .error _ => 2
  | .ok html =>
    match extract_next_data parseJson (scriptsOf html) with
    | none => 3
    | some data =>
      let found := find_bc_objects data bcid
      if found.isEmpty then 0 else 0

/-- The summarizer as the spec sentence states it: copy the allowlisted
fields that are present, in allowlist order; if at most 2 entries resulted,
additionally copy the fields among the object's first 10 (in original key
order) that were not already copied. -/
def summarizeSpec (obj : List (String × Json)) : List (String × Json) :=
  let base := keys_of_interest.filterMap (fun k => (dictGet obj k).map (fun v => (k, v)))
  if base.length ≤ 2 then
    base ++ (obj.take 10).filter (fun kv => !dictHasKey base kv.1)
  else base

/-- Is the JSON node a dictionary? -/
def isObjNode : Json → Bool
  | Json.obj _ => true
  | _ => false

/-- The per-node step of `find_bc_objects`, applied to each visited node. -/
def matchStep (bcidFilter : Option String) : Json → Option Json
  | Json.obj fs => if nodeMatches bcidFilter fs then some (Json.obj fs) else none
  | _ => none

/-! ## Helper lemmas about the Python-dict operations -/

theorem length_dictSet_le (s : List (String × Json)) (k : String) (v : Json) :
    (dictSet s k v).length ≤ s.length + 1 := by
  induction s with
  | nil => simp [dictSet]
  | cons hd tl ih =>
    obtain ⟨k0, v0⟩ := hd
    by_cases h : k0 = k
    · simp [dictSet, h]
    · simp [dictSet, h]
      omega

theorem mem_dictSet {s : List (String × Json)} {k : String} {v kv} (h : kv ∈ dictSet s k v) :
    kv ∈ s ∨ kv.1 = k := by
  induction s with
  | nil => simp [dictSet] at h; simp [h]
  | cons hd tl ih =>
    obtain ⟨k0, v0⟩ := hd
    by_cases hk : k0 = k
    · simp [dictSet, hk] at h
      rcases h with h | h
      · right; simp [h]
      · left; simp [h]
    · simp [dictSet, hk] at h
      rcases h with h | h
      · left; simp [h]
      · rcases ih h with h2 | h2
        · left; simp [h2]
        · right; exact h2

theorem dictSet_eq_append {s : List (String × Json)} {k : String} (v : Json)
    (h : dictHasKey s k = false) : dictSet s k v = s ++ [(k, v)] := by
  induction s with
  | nil => simp [dictSet]
  | cons hd tl ih =>
    obtain ⟨k0, v0⟩ := hd
    simp [dictHasKey] at h
    have h2 : dictHasKey tl k = false := by
      simp [dictHasKey]
      exact h.2
    simp [dictSet, h.1, ih h2]

theorem dictHasKey_append_single {s : List (String × Json)} {k k2 : String} {v : Json} :
    dictHasKey (s ++ [(k, v)]) k2 = (dictHasKey s k2 || k = k2) := by
  induction s with
  | nil => simp [dictHasKey]
  | cons hd tl ih =>
    simp [dictHasKey] at ih ⊢
    by_cases h : hd.1 = k2 <;> simp [h, ih]

theorem dictGet_mem {fs : List (String × Json)} {k : String} {v : Json}
    (h : dictGet fs k = some v) : (k, v) ∈ fs := by
  induction fs with
  | nil => simp [dictGet] at h
  | cons hd tl ih =>
    obtain ⟨k0, v0⟩ := hd
    by_cases hk : k0 = k
    · simp [dictGet, hk] at h
      simp [hk, h]
    · simp [dictGet, hk] at h
      simp [ih h]

theorem foldl_length_le {α : Type} (step : List (String × Json) → α → List (String × Json))
    (hstep : ∀ s a, (step s a).length ≤ s.length + 1) :
    ∀ (ks : List α) (s : List (String × Json)),
      (ks.foldl step s).length ≤ s.length + ks.length := by
  intro ks
  induction ks with
  | nil => simp
  | cons a tl ih =>
    intro s
    calc (List.foldl step (step s a) tl).length ≤ (step s a).length + tl.length := ih _
    _ ≤ s.length + 1 + tl.length := by have := hstep s a; omega
    _ = s.length + (a :: tl).length := by simp; omega

theorem mem_foldl_step {step : List (String × Json) → String → List (String × Json)}
    (hstep : ∀ s a kv, kv ∈ step s a → kv ∈ s ∨ kv.1 = a) :
    ∀ (ks : List String) (s : List (String × Json)) kv,
      kv ∈ ks.foldl step s → kv ∈ s ∨ ∃ a ∈ ks, kv.1 = a := by
  intro ks
  induction ks with
  | nil => simp
  | cons a tl ih =>
    intro s kv h
    rcases ih (step s a) kv h with h2 | h2
    · rcases hstep s a kv h2 with h3 | h3
      · exact Or.inl h3
      · exact Or.inr ⟨a, by simp, h3⟩
    · obtain ⟨b, hb, hkv⟩ := h2
      exact Or.inr ⟨b, by simp [hb], hkv⟩

/-! ## C9: the summary never exceeds 12 entries -/

/-- C9: for every JSON object, the summary has at most 12 entries — at most
the 12 allowlisted fields without the fallback, and at most 2 allowlist hits
plus 10 first-window fields when the fallback fires; moreover every summary
key comes from the allowlist or from the object's first 10 keys. -/
theorem summarize_object_le_twelve (obj : List (String × Json)) :
    (summarize_object obj).length ≤ 12 ∧
      (∀ kv ∈ summarize_object obj,
        kv.1 ∈ keys_of_interest ∨ kv.1 ∈ (obj.map Prod.fst).take 10) := by
  have hstep1 : ∀ (s : List (String × Json)) (k : String),
      ((fun s k => match dictGet obj k with
        | some v => dictSet s k v
        | none => s) s k).length ≤ s.length + 1 := by
    intro s k
    cases h : dictGet obj k with
    | none => simp only [h]; omega
    | some v =>
      simp only [h]
      exact length_dictSet_le s k v
  have hstep2 : ∀ (s : List (String × Json)) (k : String),
      ((fun s k => if dictHasKey s k then s
        else dictSet s k ((dictGet obj k).getD Json.null)) s k).length ≤ s.length + 1 := by
    intro s k
    by_cases h : dictHasKey s k <;> simp [h]
    exact length_dictSet_le s k _
  have hmem1 : ∀ (s : List (String × Json)) (k : String) kv,
      kv ∈ (fun s k => match dictGet obj k with
        | some v => dictSet s k v
        | none => s) s k → kv ∈ s ∨ kv.1 = k := by
    intro s k kv h
    cases hd : dictGet obj k with
    | none => simp only [hd] at h; exact Or.inl h
    | some v => simp only [hd] at h; exact mem_dictSet h
  have hmem2 : ∀ (s : List (String × Json)) (k : String) kv,
      kv ∈ (fun s k => if dictHasKey s k then s
        else dictSet s k ((dictGet obj k).getD Json.null)) s k → kv ∈ s ∨ kv.1 = k := by
    intro s k kv h
    by_cases hk : dictHasKey s k
    · simp [hk] at h; exact Or.inl h
    · simp [hk] at h; exact mem_dictSet h
  have hbase : (keys_of_interest.foldl (fun s k =>
      match dictGet obj k with
      | some v => dictSet s k v
      | none => s) []).length ≤ 12 := by
    have := foldl_length_le _ hstep1 keys_of_interest []
    simpa [keys_of_interest] using this
  have hrepr : summarize_object obj =
      (if (keys_of_interest.foldl (fun s k =>
          match dictGet obj k with
          | some v => dictSet s k v
          | none => s) []).length ≤ 2
       then ((obj.map Prod.fst).take 10).foldl (fun s k =>
          if dictHasKey s k then s
          else dictSet s k ((dictGet obj k).getD Json.null))
            (keys_of_interest.foldl (fun s k =>
              match dictGet obj k with
              | some v => dictSet s k v
              | none => s) [])
       else keys_of_interest.foldl (fun s k =>
          match dictGet obj k with
          | some v => dictSet s k v
          | none => s) []) := rfl
  constructor
  · rw [hrepr]
    split
    · have := foldl_length_le _ hstep2 ((obj.map Prod.fst).take 10)
        (keys_of_interest.foldl (fun s k =>
          match dictGet obj k with
          | some v => dictSet s k v
          | none => s) [])
      have hlen : ((obj.map Prod.fst).take 10).length ≤ 10 := List.length_take_le _ _
      omega
    · exact hbase
  · intro kv hkv
    rw [hrepr] at hkv
    split at hkv
    · rcases mem_foldl_step hmem2 _ _ kv hkv with h | h
      · rcases mem_foldl_step hmem1 _ _ kv h with h2 | h2
        · simp at h2
        · obtain ⟨a, ha, hkva⟩ := h2
          exact Or.inl (hkva ▸ ha)
      · obtain ⟨a, ha, hkva⟩ := h
        exact Or.inr (hkva ▸ ha)
    · rcases mem_foldl_step hmem1 _ _ kv hkv with h2 | h2
      · simp at h2
      · obtain ⟨a, ha, hkva⟩ := h2
        exact Or.inl (hkva ▸ ha)

/-- Witness for C9 at a concrete object with 13 fields, none allowlisted
except `id`: the summary stays within 12 entries and the provenance fact
holds for its first entry. -/
theorem summarize_object_le_twelve_witness :
    (summarize_object [("id", Json.str "i"), ("x1", Json.num 1), ("x2", Json.num 2),
      ("x3", Json.num 3), ("x4", Json.num 4), ("x5", Json.num 5), ("x6", Json.num 6),
      ("x7", Json.num 7), ("x8", Json.num 8), ("x9", Json.num 9), ("x10", Json.num 10),
      ("x11", Json.num 11), ("x12", Json.num 12)]).length ≤ 12 :=
  (summarize_object_le_twelve _).1

/-! ## C7: exit codes of the filter CLI -/

/-- C7: the filter CLI exits 0 on success (also with an empty match list),
2 on an HTTP error status or transport failure, and 3 when the embedded
`__NEXT_DATA__` payload cannot be located. -/
theorem mainExit_codes (bcidArg : Option String) (url : String)
    (parseJson : String → Option Json) (scriptsOf : String → List ScriptTag) :
    (∀ e, mainExit bcidArg url (Except.error e) parseJson scriptsOf = 2) ∧
    (∀ html, extract_next_data parseJson (scriptsOf html) = none →
      mainExit bcidArg url (Except.ok html) parseJson scriptsOf = 3) ∧
    (∀ html d, extract_next_data parseJson (scriptsOf html) = some d →
      mainExit bcidArg url (Except.ok html) parseJson scriptsOf = 0) ∧
    (∀ html d, extract_next_data parseJson (scriptsOf html) = some d →
      find_bc_objects d (deriveBcid bcidArg url) = [] →
      mainExit bcidArg url (Except.ok html) parseJson scriptsOf = 0) := by
  refine ⟨fun e => rfl, fun html h => ?_, fun html d h => ?_, fun html d h _ => ?_⟩ <;>
    simp [mainExit, h]

/-- Witness for C7: concrete collaborators exercising the 2, 3 and 0 exits
(the 0 exit on an empty match list). -/
theorem mainExit_codes_witness :
    mainExit none "u" (Except.error FetchError.transport) (fun _ => none) (fun _ => []) = 2 ∧
    mainExit none "u" (Except.ok "page") (fun _ => none) (fun _ => []) = 3 ∧
    mainExit none "u" (Except.ok "page")
      (fun _ => some (Json.obj []))
      (fun _ => [ScriptTag.mk (some "__NEXT_DATA__") (some "application/json") "{}"]) = 0 :=
  ⟨(mainExit_codes none "u" _ _).1 _,
   (mainExit_codes none "u" _ _).2.1 "page" rfl,
   (mainExit_codes none "u" _ _).2.2.2 "page" (Json.obj []) rfl
     (by simp [find_bc_objects, iterateJsonNodes, iterChildren, iterFields,
           nodeMatches, candidateStrings, dictGet])⟩

/-! ## C10: the three silent failure modes of `extract_next_data` -/

/-- C10: `extract_next_data` yields `none` when no script tag carries
id `__NEXT_DATA__` and type `application/json`, when such a tag has an empty
body, and also when the body fails to parse as JSON; all three are
indistinguishable to the caller and each makes `main` exit with code 3. -/
theorem extract_next_data_none_modes (parseJson : String → Option Json)
    (scripts : List ScriptTag) :
    (scripts.find? isNextDataTag = none → extract_next_data parseJson scripts = none) ∧
    (∀ t, scripts.find? isNextDataTag = some t → t.body = "" →
      extract_next_data parseJson scripts = none) ∧
    (∀ t, scripts.find? isNextDataTag = some t → t.body ≠ "" → parseJson t.body = none →
      extract_next_data parseJson scripts = none) ∧
    (∀ bcidArg url html (scriptsOf : String → List ScriptTag),
      scriptsOf html = scripts → extract_next_data parseJson scripts = none →
      mainExit bcidArg url (Except.ok html) parseJson scriptsOf = 3) := by
  refine ⟨fun h => ?_, fun t ht hb => ?_, fun t ht hb hp => ?_,
    fun bcidArg url html scriptsOf hso h => ?_⟩
  · simp [extract_next_data, h]
  · simp [extract_next_data, ht, hb]
  · simp [extract_next_data, ht, hb, hp]
  · simp [mainExit, hso, h]

/-- Witness for C10: a present `__NEXT_DATA__` tag whose body is not JSON
(the parser collaborator rejects it) still yields `none`, and the CLI exits 3. -/
theorem extract_next_data_none_modes_witness :
    extract_next_data (fun _ => none)
      [ScriptTag.mk (some "__NEXT_DATA__") (some "application/json") "not json"] = none ∧
    mainExit none "u" (Except.ok "page") (fun _ => none)
      (fun _ => [ScriptTag.mk (some "__NEXT_DATA__") (some "application/json") "not json"]) = 3 := by
  have h1 := (extract_next_data_none_modes (fun _ => none)
    [ScriptTag.mk (some "__NEXT_DATA__") (some "application/json") "not json"]).2.2.1
    (ScriptTag.mk (some "__NEXT_DATA__") (some "application/json") "not json")
    rfl (by decide) rfl
  exact ⟨h1, (extract_next_data_none_modes (fun _ => none) _).2.2.2 none "u" "page" _ rfl h1⟩

/-! ## C6: the summarizer against the spec's description -/

theorem keysNodup_iff (ks : List String) : keysNodup ks = true ↔ ks.Nodup := by
  induction ks with
  | nil => simp [keysNodup]
  | cons k tl ih => simp [keysNodup, ih, List.elem_iff]

theorem foldl_dictSet_filterMap (obj : List (String × Json)) :
    ∀ (ks : List String) (s : List (String × Json)), ks.Nodup →
      (∀ k ∈ ks, dictHasKey s k = false) →
      ks.foldl (fun s k =>
        match dictGet obj k with
        | some v => dictSet s k v
        | none => s) s
      = s ++ ks.filterMap (fun k => (dictGet obj k).map (fun v => (k, v))) := by
  intro ks
  induction ks with
  | nil => simp
  | cons k tl ih =>
    intro s hnd hkeys
    cases hd : dictGet obj k with
    | none =>
      have := ih s hnd.of_cons (fun k2 hk2 => hkeys k2 (List.mem_cons_of_mem _ hk2))
      simpa [hd] using this
    | some v =>
      have hfresh : dictHasKey s k = false := hkeys k (List.mem_cons_self _ _)
      have hset : dictSet s k v = s ++ [(k, v)] := dictSet_eq_append v hfresh
      have hrest : ∀ k2 ∈ tl, dictHasKey (s ++ [(k, v)]) k2 = false := by
        intro k2 hk2
        rw [dictHasKey_append_single]
        have h1 : dictHasKey s k2 = false := hkeys k2 (List.mem_cons_of_mem _ hk2)
        have h2 : k ≠ k2 := by
          intro he
          exact (List.nodup_cons.1 hnd).1 (he ▸ hk2)
        simp [h1, h2]
      have := ih (s ++ [(k, v)]) hnd.of_cons hrest
      simp only [List.foldl_cons, hd, hset]
      rw [this]
      simp [hd]

theorem foldl_fallback_filterMap (f : String → Json) :
    ∀ (ks : List String) (s : List (String × Json)), ks.Nodup →
      ks.foldl (fun s k => if dictHasKey s k then s else dictSet s k (f k)) s
      = s ++ ks.filterMap (fun k =>
          if dictHasKey s k then none else some (k, f k)) := by
  intro ks
  induction ks with
  | nil => simp
  | cons k tl ih =>
    intro s hnd
    by_cases hk : dictHasKey s k
    · have := ih s hnd.of_cons
      simpa [hk] using this
    · have hset : dictSet s k (f k) = s ++ [(k, f k)] :=
        dictSet_eq_append _ (by simpa using hk)
      have := ih (s ++ [(k, f k)]) hnd.of_cons
      simp only [List.foldl_cons, if_neg hk, hset]
      rw [this]
      have hcongr : tl.filterMap (fun k2 =>
          if dictHasKey (s ++ [(k, f k)]) k2 then none else some (k2, f k2))
          = tl.filterMap (fun k2 =>
            if dictHasKey s k2 then none else some (k2, f k2)) := by
        apply List.filterMap_congr
        intro k2 hk2
        have h2 : k ≠ k2 := by
          intro he
          exact (List.nodup_cons.1 hnd).1 (he ▸ hk2)
        rw [dictHasKey_append_single]
        simp [h2]
      rw [hcongr]
      simp [hk]

theorem dictGet_of_mem {obj : List (String × Json)} (hnd : (obj.map Prod.fst).Nodup)
    {kv : String × Json} (h : kv ∈ obj) : dictGet obj kv.1 = some kv.2 := by
  induction obj with
  | nil => simp at h
  | cons hd tl ih =>
    obtain ⟨k0, v0⟩ := hd
    simp only [List.map_cons, List.nodup_cons] at hnd
    rcases List.mem_cons.1 h with he | hm
    · subst he
      simp [dictGet]
    · have hne : k0 ≠ kv.1 := by
        intro he
        exact hnd.1 (he ▸ List.mem_map_of_mem Prod.fst hm)
      simp [dictGet, hne, ih hnd.2 hm]

theorem filterMap_keys_eq_filter (obj base : List (String × Json)) :
    ∀ l : List (String × Json), (∀ kv ∈ l, dictGet obj kv.1 = some kv.2) →
      (l.map Prod.fst).filterMap (fun k =>
        if dictHasKey base k then none else some (k, (dictGet obj k).getD Json.null))
      = l.filter (fun kv => !dictHasKey base kv.1) := by
  intro l
  induction l with
  | nil => simp
  | cons kv tl ih =>
    intro hget
    have hkv := hget kv (List.mem_cons_self _ _)
    have htl := ih (fun kv2 h2 => hget kv2 (List.mem_cons_of_mem _ h2))
    by_cases hb : dictHasKey base kv.1
    · simp [hb, htl]
    · simp [hb, htl, hkv]

/-- C6: `summarize_object` realizes the spec's description of the
summarizer for every real JSON object (distinct keys): the allowlisted
fields present in the object, plus — when at most 2 were found — the
not-yet-copied fields among the object's first 10 in original key order.
Being a pure function of its argument, it cannot mutate the source. -/
theorem summarize_object_eq_spec (obj : List (String × Json))
    (h : keysNodup (obj.map Prod.fst) = true) :
    summarize_object obj = summarizeSpec obj := by
  have hnd : (obj.map Prod.fst).Nodup := (keysNodup_iff _).1 h
  have hnd12 : keys_of_interest.Nodup := by decide
  have h1 : keys_of_interest.foldl (fun s k =>
      match dictGet obj k with
      | some v => dictSet s k v
      | none => s) []
      = keys_of_interest.filterMap (fun k => (dictGet obj k).map (fun v => (k, v))) := by
    have := foldl_dictSet_filterMap obj keys_of_interest [] hnd12
      (fun k _ => rfl)
    simpa using this
  have hrepr : summarize_object obj =
      (if (keys_of_interest.foldl (fun s k =>
          match dictGet obj k with
          | some v => dictSet s k v
          | none => s) []).length ≤ 2
       then ((obj.map Prod.fst).take 10).foldl (fun s k =>
          if dictHasKey s k then s
          else dictSet s k ((dictGet obj k).getD Json.null))
            (keys_of_interest.foldl (fun s k =>
              match dictGet obj k with
              | some v => dictSet s k v
              | none => s) [])
       else keys_of_interest.foldl (fun s k =>
          match dictGet obj k with
          | some v => dictSet s k v
          | none => s) []) := rfl
  have hspec : summarizeSpec obj =
      (if (keys_of_interest.filterMap (fun k =>
          (dictGet obj k).map (fun v => (k, v)))).length ≤ 2
       then keys_of_interest.filterMap (fun k => (dictGet obj k).map (fun v => (k, v))) ++
          (obj.take 10).filter (fun kv =>
            !dictHasKey (keys_of_interest.filterMap (fun k =>
              (dictGet obj k).map (fun v => (k, v)))) kv.1)
       else keys_of_interest.filterMap (fun k => (dictGet obj k).map (fun v => (k, v)))) := rfl
  rw [hrepr, hspec, h1]
  by_cases hlen : (keys_of_interest.filterMap (fun k =>
      (dictGet obj k).map (fun v => (k, v)))).length ≤ 2
  · rw [if_pos hlen, if_pos hlen]
    have hndtake : ((obj.map Prod.fst).take 10).Nodup :=
      hnd.sublist (List.take_sublist _ _)
    rw [foldl_fallback_filterMap _ _ _ hndtake]
    congr 1
    rw [← List.map_take]
    exact filterMap_keys_eq_filter obj _ (obj.take 10)
      (fun kv hkv => dictGet_of_mem hnd (List.mem_of_mem_take hkv))
  · rw [if_neg hlen, if_neg hlen]

/-- Witness for C6 at a concrete two-field object. -/
theorem summarize_object_eq_spec_witness :
    keysNodup ([("bcId", Json.str "b"), ("extra", Json.num 1)].map Prod.fst) = true ∧
    summarize_object [("bcId", Json.str "b"), ("extra", Json.num 1)]
      = summarizeSpec [("bcId", Json.str "b"), ("extra", Json.num 1)] :=
  ⟨rfl, summarize_object_eq_spec _ rfl⟩

/-! ## C1: what the finder's filter accepts -/

theorem mem_candidateStrings {fs : List (String × Json)} {s : String}
    (h : s ∈ candidateStrings fs) : ∃ k, (k, Json.str s) ∈ fs := by
  unfold candidateStrings at h
  rcases List.mem_append.1 h with h1 | h2
  · obtain ⟨k, _, heq⟩ := List.mem_filterMap.1 h1
    cases hd : dictGet fs k with
    | none => simp [hd] at heq
    | some v =>
      cases v <;> simp [hd] at heq
      exact ⟨k, heq ▸ dictGet_mem hd⟩
  · obtain ⟨kv, hkv, heq⟩ := List.mem_filterMap.1 h2
    obtain ⟨k, v⟩ := kv
    cases v <;> simp at heq
    exact ⟨k, heq ▸ hkv⟩

theorem candidate_of_strValue {fs : List (String × Json)} {k : String} {s : String}
    (h : (k, Json.str s) ∈ fs) : s ∈ candidateStrings fs := by
  unfold candidateStrings
  refine List.mem_append.2 (Or.inr (List.mem_filterMap.2 ⟨(k, Json.str s), h, rfl⟩))

/-- C1: with a target, the finder yields only dictionary nodes having a
string value whose leftmost grammar match equals the target
case-insensitively (hence a string value containing a match equal to the
target); with no target it yields every dictionary-node occurrence having
any string value that contains a grammar match. -/
theorem find_bc_objects_filter_semantics (t : Json) (f : Option String) :
    (∀ n ∈ find_bc_objects t f, ∃ fs, n = Json.obj fs ∧
      ∃ k s m, (k, Json.str s) ∈ fs ∧ bcidSearchList s.data = some m ∧
        ∀ tgt, f = some tgt → tgt ≠ "" → asciiLower (String.mk m) = asciiLower tgt) ∧
    (f = none → ∀ p fs, (p, Json.obj fs) ∈ iterateJsonNodes t [] →
      (∃ k s, (k, Json.str s) ∈ fs ∧ (bcidSearchList s.data).isSome) →
      Json.obj fs ∈ find_bc_objects t f) := by
  constructor
  · intro n hn
    obtain ⟨⟨p, node⟩, hpn, hstep⟩ := List.mem_filterMap.1 hn
    cases node <;> simp at hstep
    rename_i fs
    obtain ⟨hmatch, heq⟩ := hstep
    refine ⟨fs, heq.symm, ?_⟩
    obtain ⟨c, hc, hpass⟩ := List.any_eq_true.1 hmatch
    unfold candidatePasses at hpass
    cases hb : bcidSearch c with
    | none => rw [hb] at hpass; simp at hpass
    | some m =>
      rw [hb] at hpass
      obtain ⟨mlist, hml, hm⟩ := Option.map_eq_some'.1 hb
      obtain ⟨k, hk⟩ := mem_candidateStrings hc
      refine ⟨k, c, mlist, hk, hml, ?_⟩
      intro tgt hf htgt
      subst hf
      simp [filterAccepts, htgt] at hpass
      rw [hm]
      exact hpass
  · intro hf p fs hmem hex
    subst hf
    obtain ⟨k, s, hk, hsome⟩ := hex
    refine List.mem_filterMap.2 ⟨(p, Json.obj fs), hmem, ?_⟩
    have hnm : nodeMatches none fs = true := by
      refine List.any_eq_true.2 ⟨s, candidate_of_strValue hk, ?_⟩
      unfold candidatePasses
      cases hb : bcidSearchList s.data with
      | none => rw [hb] at hsome; simp at hsome
      | some m => simp [bcidSearch, hb, filterAccepts]
    simp [hnm]

/-- Witness for C1: a concrete one-field object whose `id` value is an
identifier; with no target the finder emits it. -/
theorem find_bc_objects_filter_semantics_witness :
    Json.obj [("id", Json.str "bc-89bdb1ce-f9e2-4db0-a1f4-e703b692633a")]
      ∈ find_bc_objects
        (Json.obj [("id", Json.str "bc-89bdb1ce-f9e2-4db0-a1f4-e703b692633a")]) none :=
  (find_bc_objects_filter_semantics _ none).2 rfl []
    [("id", Json.str "bc-89bdb1ce-f9e2-4db0-a1f4-e703b692633a")]
    (by simp [iterateJsonNodes])
    ⟨"id", "bc-89bdb1ce-f9e2-4db0-a1f4-e703b692633a", by simp, by decide⟩

/-! ## C2: the traversal visits every node exactly once; match-count bound -/

mutual

theorem length_iterateJsonNodes (j : Json) (p : List PathElem) :
    (iterateJsonNodes j p).length = j.size := by
  cases j with
  | obj fs =>
    have h := length_iterFields fs p
    simp [iterateJsonNodes, iterChildren, Json.size, h]
    omega
  | arr xs =>
    have h := length_iterElems xs p 0
    simp [iterateJsonNodes, iterChildren, Json.size, h]
    omega
  | null => simp [iterateJsonNodes, iterChildren, Json.size]
  | bool b => simp [iterateJsonNodes, iterChildren, Json.size]
  | num n => simp [iterateJsonNodes, iterChildren, Json.size]
  | str s => simp [iterateJsonNodes, iterChildren, Json.size]
termination_by sizeOf j

theorem length_iterFields (fs : List (String × Json)) (p : List PathElem) :
    (iterFields fs p).length = sizeFields fs := by
  cases fs with
  | nil => simp [iterFields, sizeFields]
  | cons kv rest =>
    obtain ⟨k, v⟩ := kv
    have h1 := length_iterateJsonNodes v (p ++ [PathElem.key k])
    have h2 := length_iterFields rest p
    simp [iterFields, sizeFields, h1, h2]
termination_by sizeOf fs

theorem length_iterElems (xs : List Json) (p : List PathElem) (i : Nat) :
    (iterElems xs p i).length = sizeElems xs := by
  cases xs with
  | nil => simp [iterElems, sizeElems]
  | cons v rest =>
    have h1 := length_iterateJsonNodes v (p ++ [PathElem.idx i])
    have h2 := length_iterElems rest p (i + 1)
    simp [iterElems, sizeElems, h1, h2]
termination_by sizeOf xs

end

mutual

theorem shape_iter : ∀ (j : Json) (p : List PathElem) (x : List PathElem × Json),
    x ∈ iterateJsonNodes j p → ∃ r, x.1 = p ++ r
  | j, p, x, hx => by
    simp only [iterateJsonNodes] at hx
    rcases List.mem_cons.1 hx with he | hc
    · exact ⟨[], by simp [he]⟩
    · cases j with
      | obj fs =>
        simp only [iterChildren] at hc
        obtain ⟨k, r, hr, _⟩ := shape_iterFields fs p x hc
        exact ⟨PathElem.key k :: r, hr⟩
      | arr xs =>
        simp only [iterChildren] at hc
        obtain ⟨n, r, hr, _⟩ := shape_iterElems xs p 0 x hc
        exact ⟨PathElem.idx n :: r, hr⟩
      | null => simp [iterChildren] at hc
      | bool b => simp [iterChildren] at hc
      | num n => simp [iterChildren] at hc
      | str s => simp [iterChildren] at hc
termination_by j => sizeOf j

theorem shape_iterFields : ∀ (fs : List (String × Json)) (p : List PathElem)
    (x : List PathElem × Json), x ∈ iterFields fs p →
    ∃ k r, x.1 = p ++ PathElem.key k :: r ∧ k ∈ fs.map Prod.fst
  | [], p, x, hx => by simp [iterFields] at hx
  | (k, v) :: rest, p, x, hx => by
    simp only [iterFields] at hx
    rcases List.mem_append.1 hx with h1 | h2
    · obtain ⟨r, hr⟩ := shape_iter v (p ++ [PathElem.key k]) x h1
      refine ⟨k, r, ?_, by simp⟩
      rw [hr, List.append_assoc]
      rfl
    · obtain ⟨k2, r, hr, hk2⟩ := shape_iterFields rest p x h2
      exact ⟨k2, r, hr, by simp [hk2]⟩
termination_by fs => sizeOf fs

theorem shape_iterElems : ∀ (xs : List Json) (p : List PathElem) (i : Nat)
    (x : List PathElem × Json), x ∈ iterElems xs p i →
    ∃ n r, x.1 = p ++ PathElem.idx n :: r ∧ i ≤ n
  | [], p, i, x, hx => by simp [iterElems] at hx
  | v :: rest, p, i, x, hx => by
    simp only [iterElems] at hx
    rcases List.mem_append.1 hx with h1 | h2
    · obtain ⟨r, hr⟩ := shape_iter v (p ++ [PathElem.idx i]) x h1
      refine ⟨i, r, ?_, Nat.le_refl i⟩
      rw [hr, List.append_assoc]
      rfl
    · obtain ⟨n, r, hr, hn⟩ := shape_iterElems rest p (i + 1) x h2
      exact ⟨n, r, hr, by omega⟩
termination_by xs => sizeOf xs

end

mutual

theorem nodup_iter : ∀ (j : Json) (p : List PathElem), j.wf = true →
    ((iterateJsonNodes j p).map Prod.fst).Nodup
  | j, p, hw => by
    simp only [iterateJsonNodes, List.map_cons]
    refine List.nodup_cons.2 ⟨?_, ?_⟩
    · intro hmem
      obtain ⟨x, hx, hx1⟩ := List.mem_map.1 hmem
      cases j with
      | obj fs =>
        simp only [iterChildren] at hx
        obtain ⟨k, r, hr, _⟩ := shape_iterFields fs p x hx
        rw [hx1] at hr
        have := congrArg List.length hr
        simp at this
      | arr xs =>
        simp only [iterChildren] at hx
        obtain ⟨n, r, hr, _⟩ := shape_iterElems xs p 0 x hx
        rw [hx1] at hr
        have := congrArg List.length hr
        simp at this
      | null => simp [iterChildren] at hx
      | bool b => simp [iterChildren] at hx
      | num n => simp [iterChildren] at hx
      | str s => simp [iterChildren] at hx
    · cases j with
      | obj fs =>
        simp only [Json.wf, Bool.and_eq_true] at hw
        simp only [iterChildren]
        exact nodup_iterFields fs p hw.2 ((keysNodup_iff _).1 hw.1)
      | arr xs =>
        simp only [Json.wf] at hw
        simp only [iterChildren]
        exact nodup_iterElems xs p 0 hw
      | null => simp [iterChildren]
      | bool b => simp [iterChildren]
      | num n => simp [iterChildren]
      | str s => simp [iterChildren]
termination_by j => sizeOf j

theorem nodup_iterFields : ∀ (fs : List (String × Json)) (p : List PathElem),
    wfFields fs = true → (fs.map Prod.fst).Nodup →
    ((iterFields fs p).map Prod.fst).Nodup
  | [], p, _, _ => by simp [iterFields]
  | (k, v) :: rest, p, hw, hk => by
    simp only [iterFields, List.map_append]
    simp only [wfFields, Bool.and_eq_true] at hw
    simp only [List.map_cons, List.nodup_cons] at hk
    refine List.Nodup.append (nodup_iter v (p ++ [PathElem.key k]) hw.1)
      (nodup_iterFields rest p hw.2 hk.2) ?_
    intro a ha hb
    obtain ⟨x, hx, hx1⟩ := List.mem_map.1 ha
    obtain ⟨y, hy, hy1⟩ := List.mem_map.1 hb
    obtain ⟨r, hr⟩ := shape_iter v (p ++ [PathElem.key k]) x hx
    obtain ⟨k2, r2, hr2, hk2⟩ := shape_iterFields rest p y hy
    have h1 : a = p ++ (PathElem.key k :: r) := by
      rw [← hx1, hr, List.append_assoc]
      rfl
    have h2 : a = p ++ (PathElem.key k2 :: r2) := by rw [← hy1, hr2]
    have h3 := List.append_cancel_left (h1.symm.trans h2)
    simp only [List.cons.injEq, PathElem.key.injEq] at h3
    exact hk.1 (h3.1 ▸ hk2)
termination_by fs => sizeOf fs

theorem nodup_iterElems : ∀ (xs : List Json) (p : List PathElem) (i : Nat),
    wfElems xs = true → ((iterElems xs p i).map Prod.fst).Nodup
  | [], p, i, _ => by simp [iterElems]
  | v :: rest, p, i, hw => by
    simp only [iterElems, List.map_append]
    simp only [wfElems, Bool.and_eq_true] at hw
    refine List.Nodup.append (nodup_iter v (p ++ [PathElem.idx i]) hw.1)
      (nodup_iterElems rest p (i + 1) hw.2) ?_
    intro a ha hb
    obtain ⟨x, hx, hx1⟩ := List.mem_map.1 ha
    obtain ⟨y, hy, hy1⟩ := List.mem_map.1 hb
    obtain ⟨r, hr⟩ := shape_iter v (p ++ [PathElem.idx i]) x hx
    obtain ⟨n, r2, hr2, hn⟩ := shape_iterElems rest p (i + 1) y hy
    have h1 : a = p ++ (PathElem.idx i :: r) := by
      rw [← hx1, hr, List.append_assoc]
      rfl
    have h2 : a = p ++ (PathElem.idx n :: r2) := by rw [← hy1, hr2]
    have h3 := List.append_cancel_left (h1.symm.trans h2)
    simp only [List.cons.injEq, PathElem.idx.injEq] at h3
    omega
termination_by xs => sizeOf xs

end

mutual

theorem countP_iter (j : Json) (p : List PathElem) :
    (iterateJsonNodes j p).countP (fun pn => isObjNode pn.2) = j.dictCount := by
  cases j with
  | obj fs =>
    have h := countP_iterFields fs p
    simp only [iterateJsonNodes, iterChildren, List.countP_cons, h]
    simp [isObjNode, Json.dictCount]
    omega
  | arr xs =>
    have h := countP_iterElems xs p 0
    simp only [iterateJsonNodes, iterChildren, List.countP_cons, h]
    simp [isObjNode, Json.dictCount]
  | null => simp [iterateJsonNodes, iterChildren, List.countP_cons, isObjNode, Json.dictCount]
  | bool b => simp [iterateJsonNodes, iterChildren, List.countP_cons, isObjNode, Json.dictCount]
  | num n => simp [iterateJsonNodes, iterChildren, List.countP_cons, isObjNode, Json.dictCount]
  | str s => simp [iterateJsonNodes, iterChildren, List.countP_cons, isObjNode, Json.dictCount]
termination_by sizeOf j

theorem countP_iterFields (fs : List (String × Json)) (p : List PathElem) :
    (iterFields fs p).countP (fun pn => isObjNode pn.2) = dictCountFields fs := by
  cases fs with
  | nil => simp [iterFields, dictCountFields]
  | cons kv rest =>
    obtain ⟨k, v⟩ := kv
    have h1 := countP_iter v (p ++ [PathElem.key k])
    have h2 := countP_iterFields rest p
    simp [iterFields, dictCountFields, List.countP_append, h1, h2]
termination_by sizeOf fs

theorem countP_iterElems (xs : List Json) (p : List PathElem) (i : Nat) :
    (iterElems xs p i).countP (fun pn => isObjNode pn.2) = dictCountElems xs := by
  cases xs with
  | nil => simp [iterElems, dictCountElems]
  | cons v rest =>
    have h1 := countP_iter v (p ++ [PathElem.idx i])
    have h2 := countP_iterElems rest p (i + 1)
    simp [iterElems, dictCountElems, List.countP_append, h1, h2]
termination_by sizeOf xs

end

theorem length_filterMap_le_countP {α β : Type} (f : α → Option β) (P : α → Bool)
    (h : ∀ a, (f a).isSome = true → P a = true) :
    ∀ l : List α, (l.filterMap f).length ≤ l.countP P := by
  intro l
  induction l with
  | nil => simp
  | cons a tl ih =>
    rw [List.countP_cons]
    cases hfa : f a with
    | none => simp [List.filterMap_cons, hfa]; omega
    | some b =>
      have := h a (by simp [hfa])
      simp [List.filterMap_cons, hfa, this]
      omega

theorem find_le_dictCount (t : Json) (f : Option String) :
    (find_bc_objects t f).length ≤ t.dictCount := by
  unfold find_bc_objects
  have h := length_filterMap_le_countP
    (fun pn : List PathElem × Json =>
      match pn.2 with
      | Json.obj fs => if nodeMatches f fs then some (Json.obj fs) else none
      | _ => none)
    (fun pn => isObjNode pn.2) ?_ (iterateJsonNodes t [])
  · rw [countP_iter] at h
    exact h
  · intro a ha
    obtain ⟨p, node⟩ := a
    cases node <;> simp_all [isObjNode]

mutual

theorem snd_iter (j : Json) (p q : List PathElem) :
    (iterateJsonNodes j p).map Prod.snd = (iterateJsonNodes j q).map Prod.snd := by
  cases j with
  | obj fs =>
    simp only [iterateJsonNodes, iterChildren, List.map_cons]
    rw [snd_iterFields fs p q]
  | arr xs =>
    simp only [iterateJsonNodes, iterChildren, List.map_cons]
    rw [snd_iterElems xs p q 0 0]
  | null => simp [iterateJsonNodes, iterChildren]
  | bool b => simp [iterateJsonNodes, iterChildren]
  | num n => simp [iterateJsonNodes, iterChildren]
  | str s => simp [iterateJsonNodes, iterChildren]
termination_by sizeOf j

theorem snd_iterFields (fs : List (String × Json)) (p q : List PathElem) :
    (iterFields fs p).map Prod.snd = (iterFields fs q).map Prod.snd := by
  cases fs with
  | nil => simp [iterFields]
  | cons kv rest =>
    obtain ⟨k, v⟩ := kv
    simp only [iterFields, List.map_append]
    rw [snd_iter v (p ++ [PathElem.key k]) (q ++ [PathElem.key k]),
      snd_iterFields rest p q]
termination_by sizeOf fs

theorem snd_iterElems (xs : List Json) (p q : List PathElem) (i i2 : Nat) :
    (iterElems xs p i).map Prod.snd = (iterElems xs q i2).map Prod.snd := by
  cases xs with
  | nil => simp [iterElems]
  | cons v rest =>
    simp only [iterElems, List.map_append]
    rw [snd_iter v (p ++ [PathElem.idx i]) (q ++ [PathElem.idx i2]),
      snd_iterElems rest p q (i + 1) (i2 + 1)]
termination_by sizeOf xs

end

theorem find_eq_filterMap_snd (t : Json) (f : Option String) :
    find_bc_objects t f = ((iterateJsonNodes t []).map Prod.snd).filterMap (matchStep f) := by
  unfold find_bc_objects
  rw [List.filterMap_map]
  apply List.filterMap_congr
  intro x _
  obtain ⟨p, node⟩ := x
  cases node <;> rfl

theorem find_arr_flatten (js : List Json) (f : Option String) :
    find_bc_objects (Json.arr js) f = (js.map (fun j => find_bc_objects j f)).flatten := by
  rw [find_eq_filterMap_snd]
  have haux : ∀ (js2 : List Json) (p : List PathElem) (i : Nat),
      ((iterElems js2 p i).map Prod.snd).filterMap (matchStep f)
      = (js2.map (fun j => find_bc_objects j f)).flatten := by
    intro js2
    induction js2 with
    | nil => simp [iterElems]
    | cons v rest ih =>
      intro p i
      simp only [iterElems, List.map_append, List.filterMap_append]
      rw [snd_iter v (p ++ [PathElem.idx i]) [], ← find_eq_filterMap_snd v f, ih p (i + 1)]
      simp
  simp only [iterateJsonNodes, iterChildren, List.map_cons, List.filterMap_cons]
  simpa [matchStep] using haux js [] 0

/-- C2: the depth-first pre-order traversal visits every node exactly once
(the visit list has exactly one entry per node of the tree, and over a real
JSON tree the visited paths are pairwise distinct); the finder emits at most
one entry per dictionary-node occurrence, so the match count never exceeds
the dictionary-node count; and equal nodes occurring repeatedly are each
emitted — an array of occurrences contributes the concatenation of each
occurrence's matches, with no deduplication. -/
theorem iterate_exactly_once_and_match_bound :
    (∀ (t : Json) (p : List PathElem), (iterateJsonNodes t p).length = t.size) ∧
    (∀ (t : Json) (p : List PathElem), t.wf = true →
      ((iterateJsonNodes t p).map Prod.fst).Nodup) ∧
    (∀ (t : Json) (f : Option String), (find_bc_objects t f).length ≤ t.dictCount) ∧
    (∀ (js : List Json) (f : Option String),
      find_bc_objects (Json.arr js) f = (js.map (fun j => find_bc_objects j f)).flatten) :=
  ⟨length_iterateJsonNodes, fun t p hw => nodup_iter t p hw,
   find_le_dictCount, find_arr_flatten⟩

/-- Witness for C2 on a concrete well-formed tree: the node with an
identifier value, listed twice in an array, is emitted twice. -/
theorem iterate_exactly_once_and_match_bound_witness :
    (Json.arr [Json.obj [("id", Json.str "bc-89bdb1ce-f9e2-4db0-a1f4-e703b692633a")],
      Json.obj [("id", Json.str "bc-89bdb1ce-f9e2-4db0-a1f4-e703b692633a")]]).wf = true ∧
    ((iterateJsonNodes (Json.arr [Json.obj [("id", Json.str "bc-89bdb1ce-f9e2-4db0-a1f4-e703b692633a")],
      Json.obj [("id", Json.str "bc-89bdb1ce-f9e2-4db0-a1f4-e703b692633a")]]) []).map Prod.fst).Nodup ∧
    find_bc_objects (Json.arr [Json.obj [("id", Json.str "bc-89bdb1ce-f9e2-4db0-a1f4-e703b692633a")],
        Json.obj [("id", Json.str "bc-89bdb1ce-f9e2-4db0-a1f4-e703b692633a")]]) none
      = (([Json.obj [("id", Json.str "bc-89bdb1ce-f9e2-4db0-a1f4-e703b692633a")],
          Json.obj [("id", Json.str "bc-89bdb1ce-f9e2-4db0-a1f4-e703b692633a")]].map
            (fun j => find_bc_objects j none))).flatten := by
  have hwf : (Json.arr [Json.obj [("id", Json.str "bc-89bdb1ce-f9e2-4db0-a1f4-e703b692633a")],
      Json.obj [("id", Json.str "bc-89bdb1ce-f9e2-4db0-a1f4-e703b692633a")]]).wf = true := by
    simp [Json.wf, wfFields, wfElems, keysNodup]
  exact ⟨hwf, iterate_exactly_once_and_match_bound.2.1 _ [] hwf,
    iterate_exactly_once_and_match_bound.2.2.2 _ none⟩

/-! ## C4 and C5: the content decoder -/

theorem utf8_decode_encodeChar (c : Nat) (hv : c < 1114112)
    (hs : ¬ (55296 ≤ c ∧ c < 57344)) (rest : List Nat) :
    utf8DecodeList (encodeChar c ++ rest) = (utf8DecodeList rest).map (c :: ·) := by
  by_cases h1 : c < 128
  · simp only [encodeChar, if_pos h1, List.cons_append, List.nil_append]
    simp [utf8DecodeList, h1]
  · by_cases h2 : c < 2048
    · have e0 : ¬ (192 + c / 64 < 128) := by omega
      have e1 : ¬ (192 + c / 64 < 194) := by omega
      have e2 : 192 + c / 64 < 224 := by omega
      have e3 : isCont (128 + c % 64) = true := by
        simp [isCont]
        omega
      have e4 : (192 + c / 64 - 192) * 64 + (128 + c % 64 - 128) = c := by omega
      simp only [encodeChar, if_neg h1, if_pos h2, List.cons_append, List.nil_append]
      have e5 : c / 64 * 64 + c % 64 = c := by omega
      simp [utf8DecodeList, utf8Decode2, e0, e1, e2, e3, e4, e5]
    · by_cases h3 : c < 65536
      · have e0 : ¬ (224 + c / 4096 < 128) := by omega
        have e1 : ¬ (224 + c / 4096 < 194) := by omega
        have e2 : ¬ (224 + c / 4096 < 224) := by omega
        have e3 : 224 + c / 4096 < 240 := by omega
        have e4 : isCont (128 + c / 64 % 64) = true := by
          simp [isCont]
          omega
        have e5 : isCont (128 + c % 64) = true := by
          simp [isCont]
          omega
        have e6 : (224 + c / 4096 - 224) * 4096 + (128 + c / 64 % 64 - 128) * 64 +
            (128 + c % 64 - 128) = c := by omega
        have e7 : 2048 ≤ c := by omega
        simp only [encodeChar, if_neg h1, if_neg h2, if_pos h3, List.cons_append,
          List.nil_append]
        have e8 : c / 4096 * 4096 + c / 64 % 64 * 64 + c % 64 = c := by omega
        have e9 : c < 55296 ∨ 57344 ≤ c := by omega
        simp [utf8DecodeList, utf8Decode3, e0, e1, e2, e3, e4, e5, e6, e7, e8, e9, hs]
      · have e0 : ¬ (240 + c / 262144 < 128) := by omega
        have e1 : ¬ (240 + c / 262144 < 194) := by omega
        have e2 : ¬ (240 + c / 262144 < 224) := by omega
        have e3 : ¬ (240 + c / 262144 < 240) := by omega
        have e4 : 240 + c / 262144 < 245 := by omega
        have e5 : isCont (128 + c / 4096 % 64) = true := by
          simp [isCont]
          omega
        have e6 : isCont (128 + c / 64 % 64) = true := by
          simp [isCont]
          omega
        have e7 : isCont (128 + c % 64) = true := by
          simp [isCont]
          omega
        have e8 : (240 + c / 262144 - 240) * 262144 + (128 + c / 4096 % 64 - 128) * 4096 +
            (128 + c / 64 % 64 - 128) * 64 + (128 + c % 64 - 128) = c := by omega
        have e9 : 65536 ≤ c := by omega
        simp only [encodeChar, if_neg h1, if_neg h2, if_neg h3, List.cons_append,
          List.nil_append]
        have e10 : c / 262144 * 262144 + c / 4096 % 64 * 4096 + c / 64 % 64 * 64 + c % 64
            = c := by omega
        simp [utf8DecodeList, utf8Decode4, e0, e1, e2, e3, e4, e5, e6, e7, e8, e9, e10, hv]

theorem utf8_decode_encodeList (cs : List Nat)
    (h : ∀ c ∈ cs, c < 1114112 ∧ ¬ (55296 ≤ c ∧ c < 57344)) :
    utf8DecodeList (utf8EncodeList cs) = some cs := by
  induction cs with
  | nil => simp [utf8EncodeList, utf8DecodeList]
  | cons c tl ih =>
    have hc := h c (by simp)
    have htl := ih (fun c2 h2 => h c2 (by simp [h2]))
    rw [show utf8EncodeList (c :: tl) = encodeChar c ++ utf8EncodeList tl from rfl,
      utf8_decode_encodeChar c hc.1 hc.2, htl]
    rfl

theorem char_scalar_valid (ch : Char) :
    ch.toNat < 1114112 ∧ ¬ (55296 ≤ ch.toNat ∧ ch.toNat < 57344) := by
  have h := ch.valid
  unfold UInt32.isValidChar Nat.isValidChar at h
  rcases h with h | h
  · have h2 : ch.val.toNat < 55296 := h
    have he : ch.toNat = ch.val.toNat := rfl
    omega
  · have h2 : 57343 < ch.val.toNat := h.1
    have h3 : ch.val.toNat < 1114112 := h.2
    have he : ch.toNat = ch.val.toNat := rfl
    omega

theorem utf8DecodeString_encode (s : String) :
    utf8DecodeString (utf8EncodeString s) = some s := by
  have hv : ∀ c ∈ s.data.map Char.toNat, c < 1114112 ∧ ¬ (55296 ≤ c ∧ c < 57344) := by
    intro c hc
    obtain ⟨ch, _, he⟩ := List.mem_map.1 hc
    exact he ▸ char_scalar_valid ch
  have hd := utf8_decode_encodeList (s.data.map Char.toNat) hv
  have hmap : (s.data.map Char.toNat).map Char.ofNat = s.data := by
    rw [List.map_map]
    simp [Function.comp_def, Char.ofNat_toNat]
  unfold utf8DecodeString utf8EncodeString
  rw [hd]
  simp only [Option.map]
  rw [hmap]

theorem decode_content_of_utf8 (decompress : List Nat → Option (List Nat))
    (content : List Nat) (t : String)
    (h : utf8DecodeString (effectiveContent decompress content) = some t) :
    decode_content decompress content = t := by
  unfold decode_content
  simp only [h]

theorem decode_content_of_latin1 (decompress : List Nat → Option (List Nat))
    (content : List Nat) (t : String)
    (hu : utf8DecodeString (effectiveContent decompress content) = none)
    (hl : latin1Decode (effectiveContent decompress content) = some t) :
    decode_content decompress content = t := by
  unfold decode_content
  simp only [hu, hl]

/-- C4: gzip-compressing the UTF-8 encoding of any text and decoding the
compressed bytes through `decode_content` reproduces the text exactly.  The
gzip codec is an assumption-packaged collaborator: its output carries the
gzip magic bytes and its decompression inverts compression. -/
theorem decode_content_gzip_roundtrip
    (compress : List Nat → List Nat) (decompress : List Nat → Option (List Nat)) (s : String)
    (hinv : ∀ b, decompress (compress b) = some b)
    (hmagic : ∀ b, hasGzipMagic (compress b) = true) :
    decode_content decompress (compress (utf8EncodeString s)) = s := by
  have he : effectiveContent decompress (compress (utf8EncodeString s)) = utf8EncodeString s := by
    simp [effectiveContent, hmagic, hinv]
  apply decode_content_of_utf8
  rw [he, utf8DecodeString_encode]

/-- Witness for C4 at a toy gzip codec (prepend the magic bytes) and a
concrete non-ASCII text. -/
theorem decode_content_gzip_roundtrip_witness :
    decode_content (fun b => some (b.drop 2))
      ((fun b => 31 :: 139 :: b) (utf8EncodeString "héllo")) = "héllo" :=
  decode_content_gzip_roundtrip (fun b => 31 :: 139 :: b) (fun b => some (b.drop 2)) "héllo"
    (fun _ => rfl) (fun _ => rfl)

/-- C5: for byte input (every value below 256, preserved by the gzip
collaborator), `decode_content` returns the UTF-8 decoding when it exists
and the Latin-1 decoding otherwise; the tagged-base64 branch is unreachable
because Latin-1 decoding succeeds on every byte sequence.  Totality of the
embedding mirrors that the function never raises. -/
theorem decode_content_utf8_or_latin1 (decompress : List Nat → Option (List Nat))
    (content : List Nat)
    (h1 : ∀ b ∈ content, b < 256)
    (h2 : ∀ cIn cOut, decompress cIn = some cOut → ∀ b ∈ cOut, b < 256) :
    (∃ cps, utf8DecodeList (effectiveContent decompress content) = some cps ∧
      decode_content decompress content = String.mk (cps.map Char.ofNat)) ∨
    (utf8DecodeList (effectiveContent decompress content) = none ∧
      decode_content decompress content
        = String.mk ((effectiveContent decompress content).map Char.ofNat)) := by
  have hb : ∀ b ∈ effectiveContent decompress content, b < 256 := by
    unfold effectiveContent
    by_cases hg : hasGzipMagic content = true
    · rw [if_pos hg]
      cases hd : decompress content with
      | none => exact h1
      | some d => exact h2 content d hd
    · rw [if_neg hg]
      exact h1
  have hlatin : latin1Decode (effectiveContent decompress content) =
      some (String.mk ((effectiveContent decompress content).map Char.ofNat)) := by
    unfold latin1Decode
    rw [if_pos]
    rw [List.all_eq_true]
    intro b hb2
    simpa using hb b hb2
  cases hu : utf8DecodeList (effectiveContent decompress content) with
  | some cps =>
    left
    exact ⟨cps, rfl, decode_content_of_utf8 _ _ _ (by simp [utf8DecodeString, hu])⟩
  | none =>
    right
    exact ⟨rfl, decode_content_of_latin1 _ _ _ (by simp [utf8DecodeString, hu]) hlatin⟩

/-- Witness for C5 on the single byte 0xFF, which is not valid UTF-8, so the
Latin-1 branch of the disjunction is the one realized. -/
theorem decode_content_utf8_or_latin1_witness :
    (∃ cps, utf8DecodeList (effectiveContent (fun _ => none) [255]) = some cps ∧
      decode_content (fun _ => none) [255] = String.mk (cps.map Char.ofNat)) ∨
    (utf8DecodeList (effectiveContent (fun _ => none) [255]) = none ∧
      decode_content (fun _ => none) [255]
        = String.mk ((effectiveContent (fun _ => none) [255]).map Char.ofNat)) :=
  decode_content_utf8_or_latin1 (fun _ => none) [255]
    (by simp) (fun _ _ h => nomatch h)

/-! ## C3 and C8: the identifier extractors -/

theorem hexGroup_append {n : Nat} {l g r : List Char} (b : List Char)
    (h : hexGroup n l = some (g, r)) : hexGroup n (l ++ b) = some (g, r ++ b) := by
  induction n generalizing l g r with
  | zero =>
    simp [hexGroup] at h ⊢
    simp [← h.1, ← h.2]
  | succ n ih =>
    cases l with
    | nil => simp [hexGroup] at h
    | cons c l2 =>
      simp only [hexGroup, List.cons_append] at h ⊢
      by_cases hc : isHexChar c = true
      · rw [if_pos hc] at h ⊢
        cases h2 : hexGroup n l2 with
        | none => rw [h2] at h; simp at h
        | some gr =>
          obtain ⟨g2, r2⟩ := gr
          rw [h2] at h
          simp at h
          try simp only [List.append_eq]
          rw [ih h2]
          simp [← h.1, ← h.2]
      · rw [if_neg hc] at h
        simp at h

theorem dashHexGroup_append {n : Nat} {l g r : List Char} (b : List Char)
    (h : dashHexGroup n l = some (g, r)) : dashHexGroup n (l ++ b) = some (g, r ++ b) := by
  cases l with
  | nil => simp [dashHexGroup] at h
  | cons c l2 =>
    simp only [dashHexGroup, List.cons_append] at h ⊢
    by_cases hc : c = '-'
    · rw [if_pos hc] at h ⊢
      cases h2 : hexGroup n l2 with
      | none => rw [h2] at h; simp at h
      | some gr =>
        obtain ⟨g2, r2⟩ := gr
        rw [h2] at h
        simp at h
        try simp only [List.append_eq]
        rw [hexGroup_append b h2]
        simp [← h.1, ← h.2]
    · rw [if_neg hc] at h
      simp at h

theorem matchBcidAt_append {l m : List Char} (b : List Char)
    (h : matchBcidAt l = some m) : matchBcidAt (l ++ b) = some m := by
  match l with
  | [] => simp [matchBcidAt] at h
  | [x] => simp [matchBcidAt] at h
  | x :: y :: l2 =>
    simp only [List.cons_append]
    simp only [matchBcidAt] at h ⊢
    by_cases hg : (x = 'b' ∨ x = 'B') ∧ (y = 'c' ∨ y = 'C')
    · rw [if_pos hg] at h ⊢
      simp only [Option.bind_eq_some, Option.map_eq_some'] at h
      obtain ⟨g1, h1, g2, h2, g3, h3, g4, h4, g5, h5, hm⟩ := h
      rw [dashHexGroup_append b h1]
      simp only [Option.some_bind]
      rw [dashHexGroup_append b h2]
      simp only [Option.some_bind]
      rw [dashHexGroup_append b h3]
      simp only [Option.some_bind]
      rw [dashHexGroup_append b h4]
      simp only [Option.some_bind]
      rw [dashHexGroup_append b h5]
      exact congrArg some hm
    · rw [if_neg hg] at h
      simp at h

theorem bcidSearchList_append_isSome {v : List Char} (b : List Char)
    (h : (bcidSearchList v).isSome = true) : (bcidSearchList (v ++ b)).isSome = true := by
  induction v with
  | nil =>
    rw [show bcidSearchList ([] : List Char) = none from rfl] at h
    simp at h
  | cons c rest ih =>
    rw [List.cons_append]
    simp only [bcidSearchList] at h ⊢
    cases hm : matchBcidAt (c :: rest) with
    | some m =>
      have h2 := matchBcidAt_append (l := c :: rest) b hm
      rw [List.cons_append] at h2
      rw [h2]
      simp
    | none =>
      rw [hm] at h
      cases hm2 : matchBcidAt (c :: (rest ++ b)) <;> simp [ih h]

theorem bcidSearchList_prepend_isSome (a : List Char) {v : List Char}
    (h : (bcidSearchList v).isSome = true) : (bcidSearchList (a ++ v)).isSome = true := by
  induction a with
  | nil => simpa using h
  | cons c a2 ih =>
    rw [List.cons_append]
    simp only [bcidSearchList]
    cases hm : matchBcidAt (c :: (a2 ++ v)) <;> simp [ih]

theorem bcidSearchList_none_of_infix {l v : List Char} (a b : List Char)
    (hl : l = a ++ v ++ b) (h : bcidSearchList l = none) : bcidSearchList v = none := by
  cases hv : bcidSearchList v with
  | none => rfl
  | some m =>
    have h1 : (bcidSearchList v).isSome = true := by simp [hv]
    have h2 := bcidSearchList_prepend_isSome a (bcidSearchList_append_isSome b h1)
    rw [← List.append_assoc, ← hl] at h2
    rw [h] at h2
    simp at h2

theorem stripCI_suffix (pat : List Char) :
    ∀ l r : List Char, stripCI pat l = some r → ∃ x, l = x ++ r := by
  induction pat with
  | nil =>
    intro l r h
    simp [stripCI] at h
    exact ⟨[], by simp [h]⟩
  | cons p ps ih =>
    intro l r h
    cases l with
    | nil => simp [stripCI] at h
    | cons c cs =>
      simp only [stripCI] at h
      by_cases hc : asciiLowerChar c = p
      · rw [if_pos hc] at h
        obtain ⟨x, hx⟩ := ih cs r h
        exact ⟨c :: x, by simp [hx]⟩
      · rw [if_neg hc] at h
        simp at h

theorem captureValue_split {l v : List Char} (h : captureValue l = some v) :
    ∃ y, l = v ++ y := by
  unfold captureValue at h
  split at h
  · simp at h
  · simp only [Option.some.injEq] at h
    refine ⟨List.dropWhile (fun c => decide (c ≠ '&' ∧ c ≠ '#')) l, ?_⟩
    rw [← h]
    exact (List.takeWhile_append_dropWhile _ _).symm

theorem queryMatchAt_infix {l v : List Char} (h : queryMatchAt l = some v) :
    ∃ x y, l = x ++ v ++ y := by
  cases l with
  | nil => simp [queryMatchAt] at h
  | cons c rest =>
    simp only [queryMatchAt] at h
    split at h
    · cases hs1 : stripCI "selectedbcid=".data rest with
      | some afterEq =>
        rw [hs1] at h
        obtain ⟨x1, hx1⟩ := stripCI_suffix _ rest afterEq hs1
        obtain ⟨y, hy⟩ := captureValue_split h
        exact ⟨c :: x1, y, by simp [hx1, hy]⟩
      | none =>
        rw [hs1] at h
        cases hs2 : stripCI "bcid=".data rest with
        | some afterEq =>
          rw [hs2] at h
          obtain ⟨x1, hx1⟩ := stripCI_suffix _ rest afterEq hs2
          obtain ⟨y, hy⟩ := captureValue_split h
          exact ⟨c :: x1, y, by simp [hx1, hy]⟩
        | none => rw [hs2] at h; simp at h
    · simp at h

theorem querySearchList_infix {l v : List Char} (h : querySearchList l = some v) :
    ∃ x y, l = x ++ v ++ y := by
  induction l with
  | nil => simp [querySearchList] at h
  | cons c rest ih =>
    simp only [querySearchList] at h
    cases hm : queryMatchAt (c :: rest) with
    | some v2 =>
      rw [hm] at h
      simp only [Option.some.injEq] at h
      exact h ▸ queryMatchAt_infix hm
    | none =>
      rw [hm] at h
      obtain ⟨x, y, hxy⟩ := ih h
      exact ⟨c :: x, y, by simp [hxy]⟩

/-- C8 counterexample: the URL `http://e/?selectedBcId=hello` contains no
occurrence of the identifier grammar anywhere — `BCID_REGEX.search` on the
whole URL fails — yet `extract_agent_id` returns the raw value `hello`
rather than none, refuting the claim as stated for that extractor. -/
theorem extract_agent_id_no_grammar_counterexample :
    bcidSearch "http://e/?selectedBcId=hello" = none ∧
    extract_agent_id "http://e/?selectedBcId=hello" = some "hello" := by
  constructor
  · rfl
  · rfl

/-- C8 amended: for every URL with no occurrence of the identifier grammar
anywhere in the URL string, `parse_bcid_from_url` returns none (the
query-parameter candidate is a substring of the URL, so it cannot match
either); `extract_agent_id`, by contrast, returns none exactly when no
`selectedBcId` parameter survives query parsing — when one is present its
raw value is returned with no grammar check.  Both functions are total
(the embedding of "never throws for malformed URLs"). -/
theorem extractor_none_on_no_match (url : String) :
    (bcidSearchList url.data = none → parse_bcid_from_url url = none) ∧
    (firstParamValue (parseQsl (urlQuery url)) "selectedBcId" = none →
      extract_agent_id url = none) := by
  constructor
  · intro h
    unfold parse_bcid_from_url
    cases hq : querySearchList url.data with
    | none => simp [h]
    | some v =>
      obtain ⟨x, y, hxy⟩ := querySearchList_infix hq
      have hv : bcidSearchList v = none := bcidSearchList_none_of_infix x y hxy h
      simp [hv, h]
  · intro h
    unfold extract_agent_id
    exact h

/-- Witness for C8 at a URL with no query parameters and no identifier. -/
theorem extractor_none_on_no_match_witness :
    parse_bcid_from_url "http://nothing.example/path" = none ∧
    extract_agent_id "http://nothing.example/path" = none :=
  ⟨(extractor_none_on_no_match _).1 rfl, (extractor_none_on_no_match _).2 rfl⟩

/-- C3 counterexample: in
`http://e/bc-cccccccc-...?bcId=zz&selectedBcId=bc-aaaaaaaa-...` the
`selectedBcId` parameter value contains the grammar match `bc-aaaaaaaa-...`,
but the extractor returns `bc-cccccccc-...` from the URL path: the leftmost
`bcId` parameter has value `zz` with no grammar match, so the code falls
back to a whole-URL search, which hits the path segment first.  And
`extract_agent_id` on a value with surrounding characters returns the raw
parameter value, not the grammar-matched substring. -/
theorem parse_bcid_counterexample :
    firstParamValue (parseQsl (urlQuery
        "http://e/bc-cccccccc-0000-0000-0000-000000000000?bcId=zz&selectedBcId=bc-aaaaaaaa-0000-0000-0000-000000000000"))
      "selectedBcId" = some "bc-aaaaaaaa-0000-0000-0000-000000000000" ∧
    bcidSearch "bc-aaaaaaaa-0000-0000-0000-000000000000"
      = some "bc-aaaaaaaa-0000-0000-0000-000000000000" ∧
    parse_bcid_from_url
        "http://e/bc-cccccccc-0000-0000-0000-000000000000?bcId=zz&selectedBcId=bc-aaaaaaaa-0000-0000-0000-000000000000"
      = some "bc-cccccccc-0000-0000-0000-000000000000" ∧
    asciiLower "bc-cccccccc-0000-0000-0000-000000000000"
      ≠ asciiLower "bc-aaaaaaaa-0000-0000-0000-000000000000" ∧
    extract_agent_id "http://e/?selectedBcId=xbc-aaaaaaaa-0000-0000-0000-000000000000y"
      = some "xbc-aaaaaaaa-0000-0000-0000-000000000000y" ∧
    bcidSearch "xbc-aaaaaaaa-0000-0000-0000-000000000000y"
      = some "bc-aaaaaaaa-0000-0000-0000-000000000000" := by
  refine ⟨rfl, rfl, rfl, ?_, rfl, rfl⟩
  decide

/-- C3 amended: when the leftmost `selectedBcId`/`bcId` query parameter (as
the query-parameter pattern matches it) has a value containing a grammar
match, `parse_bcid_from_url` returns exactly that value's first grammar
match — not the raw value; otherwise it falls back to the first grammar
match anywhere in the URL.  `extract_agent_id` instead returns the raw
first `selectedBcId` value. -/
theorem parse_bcid_query_value_match (url : String) (v m : List Char) :
    (querySearchList url.data = some v → bcidSearchList v = some m →
      parse_bcid_from_url url = some (String.mk m)) ∧
    (querySearchList url.data = some v → bcidSearchList v = none →
      parse_bcid_from_url url = (bcidSearchList url.data).map String.mk) ∧
    (querySearchList url.data = none →
      parse_bcid_from_url url = (bcidSearchList url.data).map String.mk) ∧
    (∀ r, firstParamValue (parseQsl (urlQuery url)) "selectedBcId" = some r →
      extract_agent_id url = some r) := by
  refine ⟨fun hq hm => ?_, fun hq hm => ?_, fun hq => ?_, fun r hr => ?_⟩
  · unfold parse_bcid_from_url
    simp only [hq, hm]
  · unfold parse_bcid_from_url
    simp only [hq, hm]
  · unfold parse_bcid_from_url
    simp only [hq]
  · unfold extract_agent_id
    exact hr

/-- Witness for C3 at the spec's own scenario URL: the parameter value is
exactly the identifier, and the extractor returns it. -/
theorem parse_bcid_query_value_match_witness :
    parse_bcid_from_url
        "https://cursor.com/agents?selectedBcId=bc-89bdb1ce-f9e2-4db0-a1f4-e703b692633a"
      = some "bc-89bdb1ce-f9e2-4db0-a1f4-e703b692633a" :=
  (parse_bcid_query_value_match
      "https://cursor.com/agents?selectedBcId=bc-89bdb1ce-f9e2-4db0-a1f4-e703b692633a"
      "bc-89bdb1ce-f9e2-4db0-a1f4-e703b692633a".data
      "bc-89bdb1ce-f9e2-4db0-a1f4-e703b692633a".data).1 rfl rfl

end Horus
